import Mathlib

/-!
# A shallow embedding of `probnmn`'s checkpointing and evaluation utilities

This file embeds the two source files of the repository in Lean 4 and proves
properties of the embedding:

* `src/probnmn/utils/checkpointing.py` — `CheckpointManager` with its methods
  `step`, `_state_dict`, `remove_earliest_checkpoint` and `load`;
* `src/probnmn/evaluators/_evaluator.py` — `_Evaluator.evaluate`.

Modelling conventions:

* A Python `dict` is an insertion-ordered association list with unique keys
  (`List (String × β)`); `d[k] = v` is `dictInsert` (replace in place when the
  key is present, append otherwise), `d.pop(k)` is `dictLookup` + `dictErase`.
* A serialized checkpoint file (`torch.save` / `torch.load`) is the dict that
  was saved, with values of type `Entry α`: either a checkpointable's state
  dict (`Entry.state`, of abstract type `α`) or the iteration integer
  (`Entry.int`), matching `checkpointable_state_dict["iteration"] = iteration`.
* The filesystem is a dict from file name to file content; `torch.save`
  overwrites, `unlink` erases.
* A checkpointable object is abstracted by its current state of type `α`:
  `state_dict()` reads it and `load_state_dict` replaces it.  For
  `nn.DataParallel` / `DistributedDataParallel` objects the code applies both
  operations to `.module`; the abstraction is the same, so a single state per
  registered name suffices.  The states of the registered objects at a given
  moment are a function `String → α` supplied to each operation, since the
  manager holds references and the objects mutate externally between calls.
* Metrics are `ℚ` (Python floats under `>` compare like their exact rational
  values, NaN aside); the initializer's `-1e-12` is the rational `-1/10^12`.
* Exceptions: `CheckpointManager.step` returns a `Bool` flag recording whether
  an `AttributeError` escaped (the `remove_earliest_checkpoint` path reads
  `self._serialization_dir`, an attribute that `__init__` never sets — it sets
  `self.serialization_dir` — so the unlink is never reached);
  `CheckpointManager.load` returns `none` when `load_state_dict` is reached
  with a non-state-dict entry (a `TypeError` in Python).
-/

/-- Look a key up in a Python-dict-as-association-list (first match). -/
def dictLookup {β : Type} (d : List (String × β)) (k : String) : Option β :=
  match d with
  | [] => none
  | (k', v) :: rest => if k' = k then some v else dictLookup rest k

/-- `d[k] = v` on a Python dict: replace the value at `k` in place when the key
is present, append `(k, v)` otherwise (insertion order is preserved). -/
def dictInsert {β : Type} (d : List (String × β)) (k : String) (v : β) :
    List (String × β) :=
  match d with
  | [] => [(k, v)]
  | (k', v') :: rest =>
      if k' = k then (k, v) :: rest else (k', v') :: dictInsert rest k v

/-- `d.pop(k)` / `del d[k]`: drop the first entry with key `k`. -/
def dictErase {β : Type} (d : List (String × β)) (k : String) :
    List (String × β) :=
  match d with
  | [] => []
  | (k', v) :: rest =>
      if k' = k then rest else (k', v) :: dictErase rest k

/-- The value stored in a checkpoint file under one key: a state dict of some
checkpointable (abstract contents `α`) or the iteration integer. -/
inductive Entry (α : Type) where
  | state (s : α)
  | int (i : Int)
deriving DecidableEq, Repr

/-- A checkpoint file's content: the dict passed to `torch.save`. -/
abbrev CkptFile (α : Type) := List (String × Entry α)

/-- The serialization directory on disk: file name ↦ file content. -/
abbrev FS (α : Type) := List (String × CkptFile α)

/-- The mutable state of a `CheckpointManager` object
(`src/probnmn/utils/checkpointing.py`, `__init__`):
`keep_recent`, the keys of `self.checkpointables` (a shallow copy of the
kwargs dict; the referenced objects themselves live outside, see module
comment), `self._best_metric`, `self._best_ckpt` and
`self._recent_iterations`. -/
structure Manager (α : Type) where
  keep_recent : Nat
  names : List String
  best_metric : ℚ
  best_ckpt : CkptFile α
deriving Repr

structure ManagerFull (α : Type) extends Manager α where
  recent_iterations : List Int
deriving Repr

/-- `self._best_metric: float = -1e-12` from `__init__`: the rational
`-1/10^12`, given directly in normalized form (numerator `-1`, denominator
`10^12`). -/
def initBestMetric : ℚ :=
  ⟨-1, 1000000000000, by norm_num, by simp [Nat.Coprime]⟩

/-- `initBestMetric` is the value the spelling `-1e-12` denotes. -/
theorem initBestMetric_eq : initBestMetric = -(1 / 1000000000000) := by
  rw [initBestMetric, Rat.mk'_eq_divInt, Rat.divInt_eq_div]
  norm_num

/-- A freshly constructed `CheckpointManager(serialization_dir, keep_recent,
**checkpointables)`. -/
def initManager (α : Type) (keep_recent : Nat) (names : List String) :
    ManagerFull α :=
  { keep_recent := keep_recent, names := names,
    best_metric := initBestMetric, best_ckpt := [], recent_iterations := [] }

/-- `CheckpointManager._state_dict`: one entry per registered checkpointable,
in registration order, holding its current state dict. -/
def stateDictOf {α : Type} (names : List String) (states : String → α) :
    CkptFile α :=
  names.map (fun k => (k, Entry.state (states k)))

/-- The dict that `step(iteration, …)` passes to `torch.save` for
`checkpoint_{iteration}.pth`: `_state_dict()` with
`checkpointable_state_dict["iteration"] = iteration` applied on top. -/
def stepFile {α : Type} (names : List String) (states : String → α)
    (iteration : Int) : CkptFile α :=
  dictInsert (stateDictOf names states) "iteration" (Entry.int iteration)

/-- `checkpoint_{iteration}.pth`, the f-string file name used by `step`. -/
def ckptName (iteration : Int) : String :=
  "checkpoint_" ++ toString iteration ++ ".pth"

/-- `CheckpointManager.step(iteration, metric)`.  Returns the mutated manager,
the mutated filesystem, and whether an `AttributeError` escaped: when
`len(self._recent_iterations) > self.keep_recent` the code calls
`remove_earliest_checkpoint`, which pops the earliest iteration and then reads
the attribute `self._serialization_dir` — which does not exist (`__init__`
sets `self.serialization_dir`) — so it raises before the `unlink` and no file
is ever deleted. -/
def CheckpointManager.step {α : Type} (m : ManagerFull α) (fs : FS α)
    (states : String → α) (iteration : Int) (metric : Option ℚ) :
    ManagerFull α × FS α × Bool :=
  let sd := stepFile m.names states iteration
  let best : ℚ × CkptFile α :=
    match metric with
    | some q => if q > m.best_metric then (q, sd) else (m.best_metric, m.best_ckpt)
    | none => (m.best_metric, m.best_ckpt)
  let fs := dictInsert fs (ckptName iteration) sd
  let fs := dictInsert fs "checkpoint_best.pth" best.2
  let recent := m.recent_iterations ++ [iteration]
  if recent.length > m.keep_recent then
    ({ m with best_metric := best.1, best_ckpt := best.2,
              recent_iterations := recent.tail }, fs, true)
  else
    ({ m with best_metric := best.1, best_ckpt := best.2,
              recent_iterations := recent }, fs, false)

/-- One `step()` call of a training loop: the iteration argument, the metric
argument, and the states the registered checkpointables hold at that moment. -/
structure Call (α : Type) where
  iteration : Int
  metric : Option ℚ
  states : String → α

/-- Run a sequence of `step()` calls.  The `AttributeError` flag is dropped:
the exception is raised after both `torch.save` calls and after the manager's
bookkeeping, so the object and the files are exactly as modelled whether or
not the caller catches it. -/
def runSteps {α : Type} (m : ManagerFull α) (fs : FS α) :
    List (Call α) → ManagerFull α × FS α
  | [] => (m, fs)
  | c :: cs =>
      let r := CheckpointManager.step m fs c.states c.iteration c.metric
      runSteps r.1 r.2.1 cs

/-- The restore loop of `CheckpointManager.load`: for each key of the loaded
dict (the `"iteration"` entry already popped), when the key names a registered
checkpointable, call its `load_state_dict` with the stored entry.  A stored
entry that is not a state dict makes `load_state_dict` raise; this is `none`
here. -/
def loadEntries {α : Type} (names : List String) (entries : CkptFile α)
    (states : String → α) : Option (String → α) :=
  match entries with
  | [] => some states
  | (k, e) :: rest =>
      if k ∈ names then
        match e with
        | Entry.state s =>
            loadEntries names rest (fun k' => if k' = k then s else states k')
        | Entry.int _ => none
      else loadEntries names rest states

/-- `CheckpointManager.load(checkpoint_path)`: pop `"iteration"` from the
loaded dict (default `-1`), restore every remaining entry whose key names a
registered checkpointable, and return the states after restoration together
with the popped value (`none` when an exception escapes the restore loop). -/
def CheckpointManager.load {α : Type} (names : List String) (file : CkptFile α)
    (states : String → α) : Option ((String → α) × Entry α) :=
  let iteration := (dictLookup file "iteration").getD (Entry.int (-1))
  let rest := dictErase file "iteration"
  (loadEntries names rest states).map (fun st => (st, iteration))

/-- The mode of an `nn.Module`: `model.train()` / `model.eval()` toggle it. -/
inductive Mode where
  | train
  | eval
deriving DecidableEq, Repr

/-- A model in the registry passed to `_Evaluator`
(`src/probnmn/evaluators/_evaluator.py`), abstracted to what `evaluate` reads
and writes: its train/eval mode, whether `hasattr(model, "get_metrics")` holds
and what `get_metrics()` returns (abstract type `β`), whether it is an
`nn.DataParallel` wrapper, and the same capability data for the wrapped
`.module` in that case. -/
structure PyModel (β : Type) where
  mode : Mode
  hasGetMetrics : Bool
  metrics : β
  isDataParallel : Bool
  moduleHasGetMetrics : Bool
  moduleMetrics : β
deriving DecidableEq, Repr

/-- The two loops `for model_name in self._models: … .eval()` /
`… .train()`: set every model of the registry to the given mode. -/
def setAllMode {β : Type} (models : List (String × PyModel β)) (md : Mode) :
    List (String × PyModel β) :=
  models.map (fun p => (p.1, { p.2 with mode := md }))

/-- The validation loop of `evaluate`: `for iteration, batch in
enumerate(self._dataloader): … self._do_iteration(batch); if num_batches is
not None and iteration > num_batches: break`.  `remaining` is how many batches
the data loader still yields; the result counts the batches passed to
`_do_iteration`. -/
def evalLoop (remaining : Nat) (iteration : Nat) (numBatches : Option Nat)
    (processed : Nat) : Nat :=
  match remaining with
  | 0 => processed
  | r + 1 =>
      let processed := processed + 1
      match numBatches with
      | some n =>
          if iteration > n then processed
          else evalLoop r (iteration + 1) numBatches processed
      | none => evalLoop r (iteration + 1) numBatches processed

/-- The metrics-collection loop of `evaluate`: an entry per model with
`hasattr(model, "get_metrics")`, or — for an `nn.DataParallel` without it —
with `hasattr(model.module, "get_metrics")`; other models contribute no
entry.  Registry keys are unique, so each dict assignment appends. -/
def collectMetrics {β : Type} (models : List (String × PyModel β)) :
    List (String × β) :=
  models.filterMap (fun p =>
    if p.2.hasGetMetrics then some (p.1, p.2.metrics)
    else if p.2.isDataParallel then
      if p.2.moduleHasGetMetrics then some (p.1, p.2.moduleMetrics) else none
    else none)

/-- `_Evaluator.evaluate(num_batches)`: switch every model to eval mode, run
the bounded validation loop, collect metrics, switch every model back to train
mode.  Returns the registry after the call, the `eval_metrics` dict, and the
number of batches passed to `_do_iteration`.  (Device movement, `no_grad` and
the forward passes themselves neither touch the modes nor the metrics
capabilities, so they leave no trace in this state.) -/
def evaluate {β : Type} (models : List (String × PyModel β))
    (numBatches : Option Nat) (loaderLen : Nat) :
    List (String × PyModel β) × List (String × β) × Nat :=
  let ms := setAllMode models Mode.eval
  let processed := evalLoop loaderLen 0 numBatches 0
  let eval_metrics := collectMetrics ms
  let ms := setAllMode ms Mode.train
  (ms, eval_metrics, processed)

/-- A model exposes metrics to `evaluate` iff it has `get_metrics` directly,
or is a `DataParallel` whose wrapped module has it. -/
def hasMetricsCapability {β : Type} (m : PyModel β) : Bool :=
  m.hasGetMetrics || (m.isDataParallel && m.moduleHasGetMetrics)

/-- The metrics `evaluate` reads off a capable model. -/
def exposedMetrics {β : Type} (m : PyModel β) : β :=
  if m.hasGetMetrics then m.metrics else m.moduleMetrics

/-- Specification-side: the running maximum of the supplied metrics over a
sequence of calls, seeded with `b`. -/
def foldBest {α : Type} (b : ℚ) (cs : List (Call α)) : ℚ :=
  cs.foldl (fun b c => match c.metric with | some q => max b q | none => b) b

/-- Specification-side: the best-checkpoint record after a sequence of calls,
starting from best metric `b` and best record `B`: when some call's metric
exceeded `b`, the snapshot captured at the first call attaining the running
maximum; otherwise `B` unchanged. -/
def bestFileSpec {α : Type} (names : List String) (b : ℚ) (B : CkptFile α)
    (cs : List (Call α)) : CkptFile α :=
  if foldBest b cs > b then
    match cs.find? (fun c => decide (c.metric = some (foldBest b cs))) with
    | some c => stepFile names c.states c.iteration
    | none => B
  else B

/-! ## Association-list (Python dict) lemmas -/

theorem dictLookup_dictInsert_self {β : Type} (d : List (String × β)) (k : String) (v : β) :
    dictLookup (dictInsert d k v) k = some v := by
  induction d with
  | nil => simp [dictInsert, dictLookup]
  | cons p rest ih =>
      by_cases h : p.1 = k
      · simp [dictInsert, dictLookup, h]
      · simp [dictInsert, dictLookup, h, ih]

theorem dictLookup_eq_none_iff {β : Type} (d : List (String × β)) (k : String) :
    dictLookup d k = none ↔ ∀ p ∈ d, p.1 ≠ k := by
  induction d with
  | nil => simp [dictLookup]
  | cons p rest ih =>
      by_cases h : p.1 = k
      · simp [dictLookup, h]
      · simp [dictLookup, h, ih]

theorem mem_of_mem_dictErase {β : Type} (d : List (String × β)) (k : String)
    (p : String × β) (hp : p ∈ dictErase d k) : p ∈ d := by
  induction d with
  | nil => exact hp
  | cons q rest ih =>
      by_cases h : q.1 = k
      · simp only [dictErase, if_pos h] at hp
        exact List.mem_cons_of_mem _ hp
      · simp only [dictErase, if_neg h, List.mem_cons] at hp
        rcases hp with hp | hp
        · exact hp ▸ List.mem_cons_self _ _
        · exact List.mem_cons_of_mem _ (ih hp)

/-- Erasing `"iteration"` from the dict written by `step` leaves exactly the
state-dict entries of the other registered names, in order. -/
theorem dictErase_stepFile {α : Type} (names : List String) (states : String → α)
    (i : Int) (hnd : names.Nodup) :
    dictErase (stepFile names states i) "iteration" =
      (names.filter (fun k => k ≠ "iteration")).map
        (fun k => (k, Entry.state (states k))) := by
  induction names with
  | nil => simp [stepFile, stateDictOf, dictInsert, dictErase]
  | cons n ns ih =>
      rcases List.nodup_cons.mp hnd with ⟨hn, hns⟩
      by_cases h : n = "iteration"
      · subst h
        have hfilter : ns.filter (fun k => !decide (k = "iteration")) = ns :=
          List.filter_eq_self.mpr (fun k hk => by
            simp only [Bool.not_eq_eq_eq_not, Bool.not_true, decide_eq_false_iff_not]
            exact fun he => hn (he ▸ hk))
        simp [stepFile, stateDictOf, dictInsert, dictErase, hfilter]
      · have hih : dictErase (stepFile ns states i) "iteration" =
            (ns.filter (fun k => k ≠ "iteration")).map
              (fun k => (k, Entry.state (states k))) := ih hns
        simp only [ne_eq, decide_not] at hih ⊢
        simp [stepFile, stateDictOf, dictInsert, dictErase, h] at hih ⊢
        exact hih

/-! ## One-step facts about `CheckpointManager.step` -/

/-- The one-call update of `self._best_metric`: unchanged when no metric is
supplied, otherwise pushed up to the metric when it is strictly greater. -/
def stepMetricUpd (b : ℚ) (me : Option ℚ) : ℚ :=
  match me with
  | some q => max b q
  | none => b

/-- The one-call update of `self._best_ckpt`: replaced by the dict just
serialized exactly when the supplied metric is strictly greater than the best
metric so far. -/
def stepCkptUpd {α : Type} (b : ℚ) (B : CkptFile α) (me : Option ℚ)
    (sd : CkptFile α) : CkptFile α :=
  match me with
  | some q => if b < q then sd else B
  | none => B

theorem if_lt_eq_max (b q : ℚ) : (if b < q then q else b) = max b q := by
  rcases le_or_lt q b with h | h
  · rw [if_neg (not_lt.mpr h), max_eq_left h]
  · rw [if_pos h, max_eq_right h.le]

theorem step_names {α : Type} (m : ManagerFull α) (fs : FS α)
    (states : String → α) (i : Int) (me : Option ℚ) :
    (CheckpointManager.step m fs states i me).1.names = m.names := by
  simp only [CheckpointManager.step]
  split <;> rfl

theorem step_best_metric {α : Type} (m : ManagerFull α) (fs : FS α)
    (states : String → α) (i : Int) (me : Option ℚ) :
    (CheckpointManager.step m fs states i me).1.best_metric =
      stepMetricUpd m.best_metric me := by
  cases me with
  | none => simp only [CheckpointManager.step, stepMetricUpd]; split <;> rfl
  | some q =>
      simp only [CheckpointManager.step, stepMetricUpd, ← if_lt_eq_max]
      split <;> split <;> rfl

theorem step_best_ckpt {α : Type} (m : ManagerFull α) (fs : FS α)
    (states : String → α) (i : Int) (me : Option ℚ) :
    (CheckpointManager.step m fs states i me).1.best_ckpt =
      stepCkptUpd m.best_metric m.best_ckpt me (stepFile m.names states i) := by
  cases me with
  | none => simp only [CheckpointManager.step, stepCkptUpd]; split <;> rfl
  | some q =>
      simp only [CheckpointManager.step, stepCkptUpd]
      split <;> split <;> rfl

theorem step_best_file {α : Type} (m : ManagerFull α) (fs : FS α)
    (states : String → α) (i : Int) (me : Option ℚ) :
    dictLookup (CheckpointManager.step m fs states i me).2.1 "checkpoint_best.pth" =
      some (CheckpointManager.step m fs states i me).1.best_ckpt := by
  simp only [CheckpointManager.step]
  split <;> exact dictLookup_dictInsert_self _ _ _

/-! ## The running best metric and the best-checkpoint record -/

theorem foldBest_cons {α : Type} (b : ℚ) (c : Call α) (cs : List (Call α)) :
    foldBest b (c :: cs) = foldBest (stepMetricUpd b c.metric) cs := by
  cases h : c.metric <;> simp [foldBest, stepMetricUpd, h]

theorem le_stepMetricUpd (b : ℚ) (me : Option ℚ) : b ≤ stepMetricUpd b me := by
  cases me <;> simp [stepMetricUpd]

theorem le_foldBest {α : Type} (cs : List (Call α)) : ∀ b : ℚ, b ≤ foldBest b cs := by
  induction cs with
  | nil => intro b; simp [foldBest]
  | cons c cs ih =>
      intro b
      rw [foldBest_cons]
      exact (le_stepMetricUpd b c.metric).trans (ih _)

/-- When some supplied metric pushed the running best above its seed, a call
whose metric equals the final running best occurs in the sequence. -/
theorem foldBest_attained {α : Type} (cs : List (Call α)) :
    ∀ b : ℚ, b < foldBest b cs →
    (cs.find? (fun c => decide (c.metric = some (foldBest b cs)))).isSome := by
  induction cs with
  | nil => intro b h; simp [foldBest] at h
  | cons c cs ih =>
      intro b h
      rw [foldBest_cons] at h ⊢
      cases hm : c.metric with
      | none =>
          simp only [stepMetricUpd, hm] at h ⊢
          rw [List.find?_cons_of_neg _ (by simp [hm])]
          exact ih b h
      | some q =>
          simp only [stepMetricUpd, hm] at h ⊢
          by_cases hc : q = foldBest (max b q) cs
          · rw [List.find?_cons_of_pos _
              (by simp only [hm, decide_eq_true_eq]; exact congrArg some hc)]
            simp
          · have hlt : max b q < foldBest (max b q) cs := by
              rcases lt_or_eq_of_le (le_foldBest cs (max b q)) with hlt | heq
              · exact hlt
              · exfalso
                rcases max_choice b q with hh | hh
                · rw [← hh.symm.trans heq] at h
                  exact lt_irrefl b h
                · exact hc (hh.symm.trans heq)
            rw [List.find?_cons_of_neg _
              (by simp only [hm, decide_eq_true_eq]
                  exact fun he => hc (Option.some.inj he))]
            exact ih (max b q) hlt

/-- Pushing `bestFileSpec` through one call: the best record after `c :: cs`
is the best record after `cs` started from the one-call updates of the best
metric and best record. -/
theorem bestFileSpec_cons {α : Type} (names : List String) (b : ℚ) (B : CkptFile α)
    (c : Call α) (cs : List (Call α)) :
    bestFileSpec names b B (c :: cs) =
      bestFileSpec names (stepMetricUpd b c.metric)
        (stepCkptUpd b B c.metric (stepFile names c.states c.iteration)) cs := by
  cases hm : c.metric with
  | none =>
      simp only [bestFileSpec, stepMetricUpd, stepCkptUpd, foldBest_cons, hm]
      rw [List.find?_cons_of_neg _ (by simp [hm])]
  | some q =>
      by_cases hq : b < q
      · simp only [bestFileSpec, stepMetricUpd, stepCkptUpd, foldBest_cons, hm, if_pos hq]
        simp only [max_eq_right hq.le]
        by_cases hc : q = foldBest q cs
        · rw [if_pos (hc ▸ hq), if_neg (by rw [← hc]; exact lt_irrefl q)]
          rw [List.find?_cons_of_pos _
            (by simp only [hm, decide_eq_true_eq]; exact congrArg some hc)]
        · have hqM : q < foldBest q cs := lt_of_le_of_ne (le_foldBest cs q) hc
          rw [if_pos (hq.trans hqM), if_pos hqM]
          rw [List.find?_cons_of_neg _
            (by simp only [hm, decide_eq_true_eq]
                exact fun he => hc (Option.some.inj he))]
          obtain ⟨c', hc'⟩ := Option.isSome_iff_exists.mp (foldBest_attained cs q hqM)
          rw [hc']
      · simp only [bestFileSpec, stepMetricUpd, stepCkptUpd, foldBest_cons, hm, if_neg hq,
          max_eq_left (not_lt.mp hq)]

        by_cases hM : b < foldBest b cs
        · rw [if_pos hM, if_pos hM]
          rw [List.find?_cons_of_neg _
            (by simp only [hm, decide_eq_true_eq]
                exact fun he =>
                  absurd (Option.some.inj he ▸ hM) (not_lt.mpr (not_lt.mp hq)))]
        · rw [if_neg hM, if_neg hM]

/-- Invariant of a run of `step()` calls: the registered names never change,
the best metric is the running maximum of the supplied metrics over the seed,
the best record is characterized by `bestFileSpec`, and after at least one
call the file `checkpoint_best.pth` holds exactly the best record. -/
theorem runSteps_state {α : Type} (cs : List (Call α)) :
    ∀ (m : ManagerFull α) (fs : FS α),
    (runSteps m fs cs).1.names = m.names ∧
    (runSteps m fs cs).1.best_metric = foldBest m.best_metric cs ∧
    (runSteps m fs cs).1.best_ckpt = bestFileSpec m.names m.best_metric m.best_ckpt cs ∧
    (cs ≠ [] → dictLookup (runSteps m fs cs).2 "checkpoint_best.pth" =
      some (runSteps m fs cs).1.best_ckpt) := by
  induction cs with
  | nil =>
      intro m fs
      refine ⟨rfl, rfl, ?_, fun h => absurd rfl h⟩
      simp [bestFileSpec, foldBest, runSteps]
  | cons c cs ih =>
      intro m fs
      have h1 := step_names m fs c.states c.iteration c.metric
      have h2 := step_best_metric m fs c.states c.iteration c.metric
      have h3 := step_best_ckpt m fs c.states c.iteration c.metric
      have h4 := step_best_file m fs c.states c.iteration c.metric
      obtain ⟨g1, g2, g3, g4⟩ :=
        ih (CheckpointManager.step m fs c.states c.iteration c.metric).1
          (CheckpointManager.step m fs c.states c.iteration c.metric).2.1
      have hrun : runSteps m fs (c :: cs) =
          runSteps (CheckpointManager.step m fs c.states c.iteration c.metric).1
            (CheckpointManager.step m fs c.states c.iteration c.metric).2.1 cs := rfl
      refine ⟨?_, ?_, ?_, ?_⟩
      · rw [hrun, g1, h1]
      · rw [hrun, g2, h2, foldBest_cons]
      · rw [hrun, g3, h3, h2, h1, bestFileSpec_cons]
      · intro _
        cases cs with
        | nil => rw [hrun]; exact h4
        | cons c' cs' => rw [hrun]; exact g4 (by simp)

/-! ## Facts about the restore loop of `load` -/

theorem loadEntries_not_mem {α : Type} (entries : CkptFile α) :
    ∀ (names : List String) (states st : String → α) (k : String),
    (∀ p ∈ entries, p.1 ≠ k) → loadEntries names entries states = some st →
    st k = states k := by
  induction entries with
  | nil =>
      intro names states st k _ h
      rw [← Option.some.inj h]
  | cons p rest ih =>
      intro names states st k hne h
      obtain ⟨k0, e0⟩ := p
      have hk0 : k0 ≠ k := hne (k0, e0) (List.mem_cons_self _ _)
      have hne' : ∀ p ∈ rest, p.1 ≠ k := fun p hp => hne p (List.mem_cons_of_mem _ hp)
      simp only [loadEntries] at h
      by_cases hk : k0 ∈ names
      · rw [if_pos hk] at h
        cases e0 with
        | state s =>
            rw [ih names _ st k hne' h]
            exact if_neg (fun hh => hk0 hh.symm)
        | int j => exact absurd h (by simp)
      · rw [if_neg hk] at h
        exact ih names states st k hne' h

/-- Restoring a list of pure state-dict entries with distinct keys, all of
which name registered checkpointables, succeeds and sets exactly those keys
to the stored states. -/
theorem loadEntries_mapped {α : Type} (ks : List String) :
    ∀ (names : List String) (f states : String → α), ks.Nodup →
    (∀ k ∈ ks, k ∈ names) →
    ∃ st, loadEntries names (ks.map (fun k => (k, Entry.state (f k)))) states = some st ∧
      (∀ k ∈ ks, st k = f k) ∧ (∀ k, k ∉ ks → st k = states k) := by
  induction ks with
  | nil =>
      intro names f states _ _
      exact ⟨states, rfl, by simp, fun _ _ => rfl⟩
  | cons k0 ks ih =>
      intro names f states hnd hsub
      rcases List.nodup_cons.mp hnd with ⟨hk0, hnd'⟩
      obtain ⟨st, hst, hin, hout⟩ :=
        ih names f (fun k' => if k' = k0 then f k0 else states k') hnd'
          (fun k hk => hsub k (List.mem_cons_of_mem _ hk))
      refine ⟨st, ?_, ?_, ?_⟩
      · simp only [List.map_cons, loadEntries,
          if_pos (hsub k0 (List.mem_cons_self _ _))]
        exact hst
      · intro k hk
        rcases List.mem_cons.mp hk with rfl | hk
        · rw [hout k hk0]
          simp
        · exact hin k hk
      · intro k hk
        have hk1 : k ≠ k0 := fun he => hk (he ▸ List.mem_cons_self k0 ks)
        have hk2 : k ∉ ks := fun hh => hk (List.mem_cons_of_mem _ hh)
        rw [hout k hk2]
        exact if_neg hk1

/-! ## Facts about `evaluate` -/

theorem evaluate_models_map {β : Type} (models : List (String × PyModel β))
    (nb : Option Nat) (L : Nat) :
    (evaluate models nb L).1 =
      models.map (fun p => (p.1, { p.2 with mode := Mode.train })) := by
  show setAllMode (setAllMode models Mode.eval) Mode.train = _
  simp only [setAllMode, List.map_map]
  rfl

theorem collectMetrics_setAllMode {β : Type} (models : List (String × PyModel β))
    (md : Mode) : collectMetrics (setAllMode models md) = collectMetrics models := by
  simp only [collectMetrics, setAllMode, List.filterMap_map]
  rfl

theorem lookup_collectMetrics_none {β : Type} (models : List (String × PyModel β))
    (name : String) (h : name ∉ models.map Prod.fst) :
    dictLookup (collectMetrics models) name = none := by
  induction models with
  | nil => rfl
  | cons p rest ih =>
      simp only [List.map_cons, List.mem_cons, not_or] at h
      obtain ⟨h1, h2⟩ := h
      simp only [collectMetrics, List.filterMap_cons]
      split
      · exact ih h2
      · rename_i e he
        have he1 : e.1 = p.1 := by
          split at he
          · exact (Option.some.inj he).symm ▸ rfl
          · split at he
            · split at he
              · exact (Option.some.inj he).symm ▸ rfl
              · exact absurd he (by simp)
            · exact absurd he (by simp)
        show dictLookup (e :: collectMetrics rest) name = none
        rw [dictLookup, if_neg (by rw [he1]; exact fun hh => h1 hh.symm), ih h2]

/-- One step of the metrics-collection loop: a model either contributes no
entry or exactly one entry keyed by its registry name. -/
theorem collectMetrics_cons {β : Type} (p : String × PyModel β)
    (rest : List (String × PyModel β)) :
    collectMetrics (p :: rest) = collectMetrics rest ∨
      ∃ v, collectMetrics (p :: rest) = (p.1, v) :: collectMetrics rest := by
  simp only [collectMetrics, List.filterMap_cons]
  split
  · exact Or.inl rfl
  · rename_i e he
    refine Or.inr ?_
    split at he
    · exact ⟨p.2.metrics, by rw [← Option.some.inj he]⟩
    · split at he
      · split at he
        · exact ⟨p.2.moduleMetrics, by rw [← Option.some.inj he]⟩
        · exact absurd he (by simp)
      · exact absurd he (by simp)

/-- Looking a registry name up in the collected metrics: the entry is present
with the model's exposed metrics exactly when the model has the capability. -/
theorem lookup_collectMetrics {β : Type} (models : List (String × PyModel β)) :
    ∀ (name : String) (m : PyModel β), (models.map Prod.fst).Nodup →
    (name, m) ∈ models →
    dictLookup (collectMetrics models) name =
      if hasMetricsCapability m = true then some (exposedMetrics m) else none := by
  induction models with
  | nil => intro name m _ hmem; exact absurd hmem (List.not_mem_nil _)
  | cons p rest ih =>
      obtain ⟨k0, m0⟩ := p
      intro name m hnd hmem
      simp only [List.map_cons] at hnd
      rcases List.nodup_cons.mp hnd with ⟨hk0, hnd'⟩
      rcases List.mem_cons.mp hmem with he | hmem'
      · injection he with hn hm
        subst hn
        subst hm
        have hrest := lookup_collectMetrics_none rest name hk0
        simp only [collectMetrics] at hrest
        rcases m with ⟨md, hg, mt, dp, mhg, mmt⟩
        cases hg <;> cases dp <;> cases mhg <;>
          simp [collectMetrics, List.filterMap_cons, hasMetricsCapability,
            exposedMetrics, dictLookup, hrest]
      · have hname : name ∈ rest.map Prod.fst :=
          List.mem_map.mpr ⟨(name, m), hmem', rfl⟩
        have hne : name ≠ k0 := fun he => hk0 (he ▸ hname)
        rcases collectMetrics_cons (k0, m0) rest with hcc | ⟨v, hcc⟩
        · rw [hcc]
          exact ih name m hnd' hmem'
        · rw [hcc]
          simp only [dictLookup]
          rw [if_neg (fun hh : k0 = name => hne hh.symm)]
          exact ih name m hnd' hmem'

/-- Exact count of batches handed to `_do_iteration` when a limit is given:
starting at iteration counter `it ≤ n + 1`, the loop processes
`min remaining (n + 2 - it)` further batches. -/
theorem evalLoop_count (n r : Nat) : ∀ (it p : Nat), it ≤ n + 1 →
    evalLoop r it (some n) p = p + min r (n + 2 - it) := by
  induction r with
  | zero => intro it p h; simp [evalLoop]
  | succ r ih =>
      intro it p h
      simp only [evalLoop]
      by_cases hit : it > n
      · rw [if_pos hit]
        omega
      · rw [if_neg hit]
        rw [ih (it + 1) (p + 1) (by omega)]
        omega

/-! ## The claims -/

/-- C1, as stated, is false: `_best_metric` starts at `-1e-12`, not `-∞`, so a
run whose highest metric is `-1` (seen at its only call) leaves
`checkpoint_best.pth` holding the empty initial record instead of the dict
serialized at that highest-metric call. -/
theorem checkpoint_best_threshold_counterexample :
    ¬ (dictLookup (runSteps (initManager Nat 10 ["model"]) []
          [⟨0, some (-1), fun _ => 42⟩]).2 "checkpoint_best.pth" =
        some (stepFile ["model"] (fun _ => (42 : Nat)) 0)) := by
  decide

/-- C1 (amended): after every nonempty sequence of `step()` calls,
`checkpoint_best.pth` holds exactly the manager's best record; the best metric
is the running maximum of the supplied metrics seeded at the initial
`-1e-12`; and the best record is the dict serialized at the first call
attaining that running maximum when some metric exceeded `-1e-12` — so it is
overwritten exactly when a strictly greater metric above the initial
threshold arrives — and stays the empty initial record otherwise. -/
theorem checkpoint_best_reflects_thresholded_max {α : Type} (k : Nat)
    (names : List String) (cs : List (Call α)) (hne : cs ≠ []) :
    dictLookup (runSteps (initManager α k names) [] cs).2 "checkpoint_best.pth" =
      some (runSteps (initManager α k names) [] cs).1.best_ckpt ∧
    (runSteps (initManager α k names) [] cs).1.best_metric =
      foldBest initBestMetric cs ∧
    (runSteps (initManager α k names) [] cs).1.best_ckpt =
      bestFileSpec names initBestMetric [] cs := by
  obtain ⟨g1, g2, g3, g4⟩ := runSteps_state cs (initManager α k names) []
  exact ⟨g4 hne, g2, g3⟩

/-- Witness for C1's amended theorem at a concrete run. -/
theorem checkpoint_best_reflects_thresholded_max_witness :
    ([(⟨1, some 5, fun _ => 3⟩ : Call Nat)] ≠ []) ∧
    (dictLookup (runSteps (initManager Nat 10 ["model"]) []
        [⟨1, some 5, fun _ => 3⟩]).2 "checkpoint_best.pth" =
      some (runSteps (initManager Nat 10 ["model"]) []
        [⟨1, some 5, fun _ => 3⟩]).1.best_ckpt ∧
    (runSteps (initManager Nat 10 ["model"]) []
        [⟨1, some 5, fun _ => 3⟩]).1.best_metric =
      foldBest initBestMetric [⟨1, some 5, fun _ => 3⟩] ∧
    (runSteps (initManager Nat 10 ["model"]) []
        [⟨1, some 5, fun _ => 3⟩]).1.best_ckpt =
      bestFileSpec ["model"] initBestMetric [] [⟨1, some 5, fun _ => 3⟩]) :=
  ⟨by simp,
    checkpoint_best_reflects_thresholded_max 10 ["model"]
      [⟨1, some 5, fun _ => 3⟩] (by simp)⟩

/-- C2 names a code bug: with `keep_recent = 1`, the second `step()` call pops
the earliest iteration from `_recent_iterations` and then reads the attribute
`self._serialization_dir`, which `__init__` never sets (it sets
`self.serialization_dir`), so an `AttributeError` escapes before the `unlink`
and both per-iteration files are still on disk. -/
theorem remove_earliest_checkpoint_attribute_error :
    (let r1 := CheckpointManager.step (initManager Nat 1 ["model"]) []
        (fun _ => 0) 1 none
     let r2 := CheckpointManager.step r1.1 r1.2.1 (fun _ => 0) 2 none
     r2.2.2 = true ∧ r2.1.recent_iterations = [2] ∧
       (dictLookup r2.2.1 "checkpoint_1.pth").isSome = true ∧
       (dictLookup r2.2.1 "checkpoint_2.pth").isSome = true) := by
  decide

/-- C5, as stated, is false for a checkpointable registered under the name
`"iteration"`: `step` overwrites its serialized entry with the iteration
integer, and `load` pops that entry before matching, so the round trip does
not restore it. -/
theorem step_load_round_trip_counterexample :
    ¬ (∀ res : (String → Nat) × Entry Nat,
        CheckpointManager.load ["iteration"]
            (stepFile ["iteration"] (fun _ => 5) 3) (fun _ => 5) = some res →
        ∀ e, dictLookup (stepFile ["iteration"] (fun _ => (5 : Nat)) 3)
            "iteration" = some e →
          e = Entry.state (res.1 "iteration")) := by
  intro h
  have hinst := h ((fun _ => 5), Entry.int 3) rfl (Entry.int 3) rfl
  exact absurd hinst (by decide)

/-- C5 (amended): `step()` followed by `load()` of the written file restores,
for every registered checkpointable other than one named `"iteration"`, state
identical to the state serialized at `step` time, whatever the states were at
load time. -/
theorem step_load_round_trip {α : Type} (names : List String)
    (states : String → α) (i : Int) (states2 : String → α)
    (res : (String → α) × Entry α) (name : String)
    (hnd : names.Nodup)
    (h : CheckpointManager.load names (stepFile names states i) states2 = some res)
    (hname : name ∈ names) (hni : name ≠ "iteration") :
    res.1 name = states name := by
  simp only [CheckpointManager.load, dictErase_stepFile names states i hnd] at h
  obtain ⟨st, hst, hres⟩ := Option.map_eq_some'.mp h
  obtain ⟨st', hst', hin, hout⟩ :=
    loadEntries_mapped (names.filter (fun k => k ≠ "iteration")) names states states2
      (hnd.filter _) (fun k hk => (List.mem_filter.mp hk).1)
  have hstst : st = st' := Option.some.inj (hst.symm.trans hst')
  rw [← hres]
  show st name = states name
  rw [hstst]
  exact hin name (List.mem_filter.mpr ⟨hname, by simp [hni]⟩)

/-- Witness for C5's amended theorem at a concrete round trip. -/
theorem step_load_round_trip_witness :
    (["model"] : List String).Nodup ∧ ("model" ∈ ["model"]) ∧
    ("model" ≠ "iteration") ∧
    ((fun k => if k = "model" then (7 : Nat) else 0), (Entry.int 4 : Entry Nat)).1 "model" =
      (fun _ => (7 : Nat)) "model" :=
  ⟨by decide, by decide, by decide,
    step_load_round_trip ["model"] (fun _ => 7) 4 (fun _ => 0)
      ((fun k => if k = "model" then 7 else 0), Entry.int 4) "model"
      (by decide) rfl (by decide) (by decide)⟩

/-- C6: `load` leaves every registered checkpointable whose name does not
appear among the keys of the serialized file with its state unchanged. -/
theorem load_leaves_unmatched_untouched {α : Type} (names : List String)
    (file : CkptFile α) (states : String → α) (res : (String → α) × Entry α)
    (name : String) (_hreg : name ∈ names)
    (habs : dictLookup file name = none)
    (h : CheckpointManager.load names file states = some res) :
    res.1 name = states name := by
  simp only [CheckpointManager.load] at h
  obtain ⟨st, hst, hres⟩ := Option.map_eq_some'.mp h
  have hfile : ∀ p ∈ file, p.1 ≠ name := (dictLookup_eq_none_iff file name).mp habs
  have herase : ∀ p ∈ dictErase file "iteration", p.1 ≠ name :=
    fun p hp => hfile p (mem_of_mem_dictErase file "iteration" p hp)
  rw [← hres]
  exact loadEntries_not_mem (dictErase file "iteration") names states st name herase hst

/-- Witness for C6 at a concrete file missing the name `"opt"`. -/
theorem load_leaves_unmatched_untouched_witness :
    ("opt" ∈ ["model", "opt"]) ∧
    dictLookup [("model", Entry.state (1 : Nat))] "opt" = none ∧
    ((fun k => if k = "model" then (1 : Nat) else 9),
      (Entry.int (-1) : Entry Nat)).1 "opt" = (fun _ => (9 : Nat)) "opt" :=
  ⟨by decide, by decide,
    load_leaves_unmatched_untouched ["model", "opt"] [("model", Entry.state 1)]
      (fun _ => 9) ((fun k => if k = "model" then 1 else 9), Entry.int (-1)) "opt"
      (by decide) (by decide) rfl⟩

/-- C7: `load` returns the iteration stored by `step` in the file it reads,
and the sentinel `-1` when the file has no `"iteration"` entry. -/
theorem load_returns_stored_iteration {α β : Type} (names : List String)
    (states states2 : String → α) (i : Int) (res : (String → α) × Entry α)
    (names' : List String) (file : CkptFile β) (states' : String → β)
    (res' : (String → β) × Entry β)
    (h : CheckpointManager.load names (stepFile names states i) states2 = some res)
    (habs : dictLookup file "iteration" = none)
    (h' : CheckpointManager.load names' file states' = some res') :
    res.2 = Entry.int i ∧ res'.2 = Entry.int (-1) := by
  constructor
  · simp only [CheckpointManager.load] at h
    obtain ⟨st, hst, hres⟩ := Option.map_eq_some'.mp h
    rw [← hres]
    show (dictLookup (stepFile names states i) "iteration").getD (Entry.int (-1)) =
      Entry.int i
    rw [stepFile, dictLookup_dictInsert_self]
    rfl
  · simp only [CheckpointManager.load] at h'
    obtain ⟨st, hst, hres⟩ := Option.map_eq_some'.mp h'
    rw [← hres]
    show (dictLookup file "iteration").getD (Entry.int (-1)) = Entry.int (-1)
    rw [habs]
    rfl

/-- Witness for C7: a step-written file returns its iteration, a file without
an iteration entry returns `-1`. -/
theorem load_returns_stored_iteration_witness :
    ((fun k => if k = "model" then (7 : Nat) else 0),
      (Entry.int 4 : Entry Nat)).2 = Entry.int 4 ∧
    ((fun k => if k = "model" then (1 : Nat) else 9),
      (Entry.int (-1) : Entry Nat)).2 = Entry.int (-1) :=
  load_returns_stored_iteration ["model"] (fun _ => 7) (fun _ => 0) 4
    ((fun k => if k = "model" then 7 else 0), Entry.int 4)
    ["model"] [("model", Entry.state 1)] (fun _ => 9)
    ((fun k => if k = "model" then 1 else 9), Entry.int (-1))
    rfl (by decide) rfl

/-- C9: for a checkpointable registered under the name `"iteration"`, `step`
silently replaces its serialized state with the iteration integer, and `load`
of the written file never restores it — its state keeps the pre-load value. -/
theorem iteration_key_shadows_checkpointable {α : Type} (names : List String)
    (states : String → α) (i : Int) (states2 : String → α)
    (res : (String → α) × Entry α)
    (hnd : names.Nodup) (_hmem : "iteration" ∈ names)
    (h : CheckpointManager.load names (stepFile names states i) states2 = some res) :
    dictLookup (stepFile names states i) "iteration" = some (Entry.int i) ∧
    res.1 "iteration" = states2 "iteration" := by
  refine ⟨by rw [stepFile]; exact dictLookup_dictInsert_self _ _ _, ?_⟩
  simp only [CheckpointManager.load, dictErase_stepFile names states i hnd] at h
  obtain ⟨st, hst, hres⟩ := Option.map_eq_some'.mp h
  rw [← hres]
  refine loadEntries_not_mem _ names states2 st "iteration" ?_ hst
  intro p hp
  obtain ⟨k, hk, rfl⟩ := List.mem_map.mp hp
  have hkf := List.mem_filter.mp hk
  simpa using hkf.2

/-- Witness for C9 with the single checkpointable `"iteration"`. -/
theorem iteration_key_shadows_checkpointable_witness :
    (["iteration"] : List String).Nodup ∧ ("iteration" ∈ ["iteration"]) ∧
    (dictLookup (stepFile ["iteration"] (fun _ => (5 : Nat)) 3) "iteration" =
      some (Entry.int 3) ∧
    ((fun _ => (8 : Nat)), (Entry.int 3 : Entry Nat)).1 "iteration" =
      (fun _ => (8 : Nat)) "iteration") :=
  ⟨by decide, by decide,
    iteration_key_shadows_checkpointable ["iteration"] (fun _ => 5) 3 (fun _ => 8)
      ((fun _ => 8), Entry.int 3) (by decide) (by decide) rfl⟩

/-- C3, as stated, is false: a model that is in eval mode before the call is
in train mode — not its prior mode — after `evaluate()` returns, because the
final loop unconditionally calls `.train()` on every model. -/
theorem evaluate_mode_not_restored_counterexample :
    ¬ (∀ p ∈ (evaluate [("m", (⟨Mode.eval, false, 0, false, false, 0⟩ :
          PyModel Nat))] none 1).1,
        p.2.mode = Mode.eval) := by
  decide

/-- C3 (amended): after `evaluate()` returns, every model's mode is train
mode, whatever mode it had immediately before the call. -/
theorem evaluate_final_mode_train {β : Type} (models : List (String × PyModel β))
    (nb : Option Nat) (L : Nat) (p : String × PyModel β)
    (hp : p ∈ (evaluate models nb L).1) : p.2.mode = Mode.train := by
  rw [evaluate_models_map] at hp
  obtain ⟨q, _, rfl⟩ := List.mem_map.mp hp
  rfl

/-- Witness for C3's amended theorem on a registry whose model started in eval
mode. -/
theorem evaluate_final_mode_train_witness :
    (("m", (⟨Mode.train, false, 0, false, false, 0⟩ : PyModel Nat)) ∈
      (evaluate [("m", (⟨Mode.eval, false, 0, false, false, 0⟩ : PyModel Nat))]
        none 1).1) ∧
    ("m", (⟨Mode.train, false, 0, false, false, 0⟩ : PyModel Nat)).2.mode =
      Mode.train :=
  ⟨by decide,
    evaluate_final_mode_train
      [("m", (⟨Mode.eval, false, 0, false, false, 0⟩ : PyModel Nat))] none 1
      ("m", ⟨Mode.train, false, 0, false, false, 0⟩) (by decide)⟩

/-- C4: when `evaluate()` finishes, the registry equals the input registry
with every model's mode set to train — in particular every model is in
training mode, for every registry, including ones where metrics collection
was skipped for some or all models for lack of a `get_metrics` capability
(the registry argument ranges over all capability combinations, and the
metrics loop never touches the modes). -/
theorem evaluate_restores_training_mode {β : Type}
    (models : List (String × PyModel β)) (nb : Option Nat) (L : Nat) :
    (evaluate models nb L).1 =
      models.map (fun p => (p.1, { p.2 with mode := Mode.train })) :=
  evaluate_models_map models nb L

/-- C8: `evaluate()` returns a metrics entry for a model precisely when the
model exposes `get_metrics` (directly, or on the wrapped module of an
`nn.DataParallel`); a model without the capability raises nothing and simply
has no entry under its name. -/
theorem evaluate_metrics_capability {β : Type} (models : List (String × PyModel β))
    (nb : Option Nat) (L : Nat) (name : String) (m : PyModel β)
    (hnd : (models.map Prod.fst).Nodup) (hmem : (name, m) ∈ models) :
    dictLookup (evaluate models nb L).2.1 name =
      if hasMetricsCapability m = true then some (exposedMetrics m) else none := by
  have he : (evaluate models nb L).2.1 = collectMetrics (setAllMode models Mode.eval) :=
    rfl
  rw [he, collectMetrics_setAllMode]
  exact lookup_collectMetrics models name m hnd hmem

/-- Witness for C8 on a registry with one capable and one incapable model. -/
theorem evaluate_metrics_capability_witness :
    (([("a", (⟨Mode.train, true, 1, false, false, 0⟩ : PyModel Nat)),
        ("b", (⟨Mode.train, false, 2, false, false, 0⟩ : PyModel Nat))].map
        Prod.fst).Nodup) ∧
    (("b", (⟨Mode.train, false, 2, false, false, 0⟩ : PyModel Nat)) ∈
      [("a", (⟨Mode.train, true, 1, false, false, 0⟩ : PyModel Nat)),
        ("b", (⟨Mode.train, false, 2, false, false, 0⟩ : PyModel Nat))]) ∧
    dictLookup (evaluate
        [("a", (⟨Mode.train, true, 1, false, false, 0⟩ : PyModel Nat)),
          ("b", (⟨Mode.train, false, 2, false, false, 0⟩ : PyModel Nat))]
        none 1).2.1 "b" =
      if hasMetricsCapability
          (⟨Mode.train, false, 2, false, false, 0⟩ : PyModel Nat) = true
      then some (exposedMetrics
          (⟨Mode.train, false, 2, false, false, 0⟩ : PyModel Nat)) else none :=
  ⟨by decide, by decide,
    evaluate_metrics_capability
      [("a", ⟨Mode.train, true, 1, false, false, 0⟩),
        ("b", ⟨Mode.train, false, 2, false, false, 0⟩)]
      none 1 "b" ⟨Mode.train, false, 2, false, false, 0⟩ (by decide) (by decide)⟩

/-- C10: with a limit `num_batches = n` and a loader yielding `B` batches,
`evaluate` hands exactly `min B (n + 2)` batches to `_do_iteration`: the
check `iteration > num_batches` runs after the body, so up to two batches
beyond the limit are processed. -/
theorem evaluate_num_batches_processed {β : Type}
    (models : List (String × PyModel β)) (B n : Nat) :
    (evaluate models (some n) B).2.2 = min B (n + 2) := by
  have he : (evaluate models (some n) B).2.2 = evalLoop B 0 (some n) 0 := rfl
  rw [he, evalLoop_count n B 0 0 (by omega)]
  omega
